import Mathlib

/-!
Verification development for the Backtrader turtle-strategy script
(`backtrader_guide.py`).  The Python classes are shallowly embedded as Lean
definitions over exact rationals; per-bar behaviour becomes explicit state
passing.  Values coming from the host `backtrader` library (indicator values,
broker position, order notifications) are inputs to the embedded functions.
-/

/-- A price bar: the fields of the OHLCV record the strategy reads. -/
structure PriceBar where
  high : ℚ
  low : ℚ
  close : ℚ
  deriving Repr, DecidableEq

/-! ## Sizer (`FixedPerc`, src lines 30-46)

`_getsizing` computes `cashtouse = perc * cash` and then Python float floor
division `cashtouse // margin`. -/

/-- Embedding of `FixedPerc._getsizing`: `perc * cash // margin`. -/
def FixedPerc.getsizing (perc margin cash : ℚ) : ℤ :=
  let cashtouse := perc * cash
  ⌊cashtouse / margin⌋

/-! ## Donchian channel (`DonchianChannels`, src lines 49-84) -/

/-- Embedding of a `backtrader` line call `x(ago)`: the series delayed by
`-ago` bars, so `x(-1)` at bar `t` reads `x` at bar `t-1`. -/
def lineCall (x : ℕ → ℚ) (ago : ℤ) (t : ℕ) : ℚ :=
  x ((t : ℤ) + ago).toNat

/-- The trailing window of the last `p` values of a series at bar `t`
(current bar included), as read by `bt.ind.Highest`/`Lowest`. -/
def windowVals (x : ℕ → ℚ) (p t : ℕ) : List ℚ :=
  (List.range p).map (fun i => x (t - i))

/-- Embedding of `bt.ind.Highest(x, period=p)` at bar `t`. -/
def Highest (x : ℕ → ℚ) (p t : ℕ) : ℚ :=
  (windowVals x p t).foldr max (x t)

/-- Embedding of `bt.ind.Lowest(x, period=p)` at bar `t`. -/
def Lowest (x : ℕ → ℚ) (p t : ℕ) : ℚ :=
  (windowVals x p t).foldr min (x t)

/-- The three output lines of `DonchianChannels`. -/
structure DonchianLines where
  dcm : ℕ → ℚ
  dch : ℕ → ℚ
  dcl : ℕ → ℚ

/-- Embedding of `DonchianChannels.__init__` (src lines 77-84): when
`lookback` is truthy (non-zero) the high/low inputs are delayed by it, then
`dch`/`dcl` are the rolling highest/lowest and `dcm` their average. -/
def DonchianChannels (high low : ℕ → ℚ) (period : ℕ) (lookback : ℤ) : DonchianLines :=
  let hi := if lookback = 0 then high else lineCall high lookback
  let lo := if lookback = 0 then low else lineCall low lookback
  { dch := fun t => Highest hi period t
    dcl := fun t => Lowest lo period t
    dcm := fun t => (Highest hi period t + Lowest lo period t) / 2 }

/-! ## Turtle strategy (`TurtleStrategy`, src lines 88-206) -/

/-- The strategy's parameter tuple (src lines 91-97). -/
structure TurtleParams where
  fast_ema_period : ℕ
  slow_ema_period : ℕ
  donchian_period : ℕ
  ATR_period : ℕ
  ATR_dist : ℚ
  deriving Repr, DecidableEq

/-- The default parameter values of `TurtleStrategy.params`. -/
def TurtleStrategy.params : TurtleParams :=
  { fast_ema_period := 25, slow_ema_period := 350, donchian_period := 20
    ATR_period := 20, ATR_dist := 2 }

/-- Everything `next` reads from the host on the current bar: the bar's
close, the indicator values at index `[0]`, and the broker position size. -/
structure BarCtx where
  close : ℚ
  dch : ℚ
  dcl : ℚ
  emafast : ℚ
  emaslow : ℚ
  atr : ℚ
  positionSize : ℤ
  deriving Repr, DecidableEq

/-- The order submissions `next` can make through the broker. -/
inductive TradeAction where
  | buy
  | sell
  | closePos
  deriving Repr, DecidableEq

/-- Broker order statuses named by `notify_order`. -/
inductive OrdStatus where
  | Submitted
  | Accepted
  | Completed
  | Canceled
  | Margin
  | Rejected
  deriving Repr, DecidableEq

/-- An order notification delivered to `notify_order`. -/
structure OrderMsg where
  status : OrdStatus
  isbuy : Bool
  execPrice : ℚ
  execValue : ℚ
  execComm : ℚ
  barLen : ℕ
  deriving Repr, DecidableEq

/-- The strategy's own mutable attributes (src lines 104-120). -/
structure StratState where
  dataclose : ℚ
  order : Option Unit
  buyprice : Option ℚ
  buycomm : Option ℚ
  bar_executed : Option ℕ
  deriving Repr, DecidableEq

/-- Embedding of `TurtleStrategy.__init__`: `dataclose` is assigned the
scalar value of `self.data.close[0]` at construction time (`c0`); the
order/price/commission trackers start at `None`. -/
def TurtleStrategy.init (c0 : ℚ) : StratState :=
  { dataclose := c0, order := none, buyprice := none, buycomm := none
    bar_executed := none }

/-- `pdist = self.atr[0] * self.p.ATR_dist` (src line 174). -/
def pdist (p : TurtleParams) (ctx : BarCtx) : ℚ :=
  ctx.atr * p.ATR_dist

/-- `long_stop = self.dataclose - pdist` (src line 175). -/
def long_stop (p : TurtleParams) (s : StratState) (ctx : BarCtx) : ℚ :=
  s.dataclose - pdist p ctx

/-- `short_stop = self.dataclose + pdist` (src line 176). -/
def short_stop (p : TurtleParams) (s : StratState) (ctx : BarCtx) : ℚ :=
  s.dataclose + pdist p ctx

/-- `long_profit = self.dataclose + pdist` (src line 177). -/
def long_profit (p : TurtleParams) (s : StratState) (ctx : BarCtx) : ℚ :=
  s.dataclose + pdist p ctx

/-- `short_profit = self.dataclose - pdist` (src line 178). -/
def short_profit (p : TurtleParams) (s : StratState) (ctx : BarCtx) : ℚ :=
  s.dataclose - pdist p ctx

/-- Embedding of `TurtleStrategy.next` (src lines 165-206).  It returns the
(unchanged) strategy state together with the order submission made this bar,
if any.  Note that the source assigns no attribute in `next`; in particular
the return values of `self.buy()`, `self.sell()` and `self.close()` are
discarded, so `order` stays whatever it was. -/
def TurtleStrategy.next (p : TurtleParams) (s : StratState) (ctx : BarCtx) :
    StratState × Option TradeAction :=
  if s.order.isSome then (s, none)
  else if ctx.positionSize = 0 then
    if s.dataclose > ctx.dch then
      if ctx.emafast > ctx.emaslow then (s, some TradeAction.buy) else (s, none)
    else if s.dataclose < ctx.dcl then
      if ctx.emafast < ctx.emaslow then (s, some TradeAction.sell) else (s, none)
    else (s, none)
  else if ctx.positionSize > 0 then
    if s.dataclose < long_stop p s ctx ∨ s.dataclose > long_profit p s ctx then
      (s, some TradeAction.closePos)
    else (s, none)
  else if ctx.positionSize < 0 then
    if s.dataclose > short_stop p s ctx ∨ s.dataclose < short_profit p s ctx then
      (s, some TradeAction.closePos)
    else (s, none)
  else (s, none)

/-- Embedding of `TurtleStrategy.notify_order` (src lines 122-154): nothing
changes on `Submitted`/`Accepted`; on `Completed` a buy records its price and
commission and `bar_executed` is stamped; every resolved status finally
clears `self.order`. -/
def TurtleStrategy.notify_order (s : StratState) (o : OrderMsg) : StratState :=
  if o.status = OrdStatus.Submitted ∨ o.status = OrdStatus.Accepted then s
  else if o.status = OrdStatus.Completed then
    if o.isbuy then
      { s with buyprice := some o.execPrice, buycomm := some o.execComm
               bar_executed := some o.barLen, order := none }
    else
      { s with bar_executed := some o.barLen, order := none }
  else
    { s with order := none }

/-- An event delivered to the strategy: a new bar or an order notification. -/
inductive TEvent where
  | bar (ctx : BarCtx)
  | onOrder (msg : OrderMsg)

/-- One strategy callback. -/
def stepEvent (p : TurtleParams) (s : StratState) : TEvent → StratState
  | TEvent.bar ctx => (TurtleStrategy.next p s ctx).1
  | TEvent.onOrder m => TurtleStrategy.notify_order s m

/-- The sequence of order submissions produced by running `next` over a
sequence of bar contexts. -/
def runActions (p : TurtleParams) (s : StratState) : List BarCtx → List TradeAction
  | [] => []
  | ctx :: rest =>
    ((TurtleStrategy.next p s ctx).2).toList ++
      runActions p (TurtleStrategy.next p s ctx).1 rest

/-! ## Startup configuration (`__main__`, src lines 211-241, and the
parameter blocks of `customCSV`, `FixedPerc`, `TurtleStrategy`) -/

/-- The recognized configuration options (spec section 6).  Dates are day
ordinals. -/
structure RunConfig where
  fromdate : ℤ
  todate : ℤ
  fast_ema_period : ℤ
  slow_ema_period : ℤ
  donchian_period : ℤ
  ATR_period : ℤ
  ATR_dist : ℚ
  perc : ℚ
  margin : ℚ
  commission : ℚ
  startingCash : ℚ
  deriving Repr, DecidableEq

/-- The assembled backtest run produced by the `__main__` block. -/
structure CerebroRun where
  config : RunConfig
  deriving Repr, DecidableEq

/-- Embedding of the `__main__` startup path (src lines 211-241): it builds
the cerebro run from the configuration — adds the strategy, the data feed
with its date parameters, cash, sizer and commission — and contains no
conditional, no validation and no raise: every configuration is accepted. -/
def mainStartup (c : RunConfig) : Except String CerebroRun :=
  Except.ok { config := c }

/-- Modelled from the spec: the date-range filtering of the input feed
(section 6, performed by the external `GenericCSVData`, not by code under
src/): bars whose timestamp lies outside `[fromdate, todate]` are dropped
before the core sees them. -/
def filterFeed (fromdate todate : ℤ) (bars : List (ℤ × PriceBar)) : List (ℤ × PriceBar) :=
  bars.filter (fun b => decide (fromdate ≤ b.1) && decide (b.1 ≤ todate))

/-! ## EMA and ATR (instantiated from the host library at src lines 109-115;
their algorithms are modelled from the spec, sections 4.1 and 4.3) -/

/-- Simple average of a list of values. -/
def sma (l : List ℚ) : ℚ :=
  l.sum / l.length

/-- One recursive smoothing step: `new = value * k + old * (1 - k)`. -/
def smoothUpd (k e v : ℚ) : ℚ :=
  v * k + e * (1 - k)

/-- Modelled from the spec: a seeded recursive smoother — undefined until
`period` values have been observed, seeded by the simple average of the
first `period` values, then updated recursively with coefficient `k`. -/
def seededSmooth (k : ℚ) (period : ℕ) (vals : List ℚ) : Option ℚ :=
  if period = 0 then none
  else if vals.length < period then none
  else some ((vals.drop period).foldl (smoothUpd k) (sma (vals.take period)))

/-- The EMA smoothing coefficient `k = 2 / (period + 1)`. -/
def emaK (period : ℕ) : ℚ :=
  2 / ((period : ℚ) + 1)

/-- Modelled from the spec: `bt.indicators.ExponentialMovingAverage` — the
seeded recursion with `k = 2 / (period + 1)` (spec section 4.1); the
implementation lives in the external library, not under src/. -/
def ExponentialMovingAverage (period : ℕ) (vals : List ℚ) : Option ℚ :=
  seededSmooth (emaK period) period vals

/-- True range of a bar given the previous close (spec section 4.1). -/
def trueRange (high low prevClose : ℚ) : ℚ :=
  max (high - low) (max |high - prevClose| |low - prevClose|)

/-- The per-bar true ranges of a bar list (each bar after the first paired
with its predecessor's close). -/
def trueRanges : List PriceBar → List ℚ
  | [] => []
  | [_] => []
  | b0 :: b1 :: rest =>
    trueRange b1.high b1.low b0.close :: trueRanges (b1 :: rest)

/-- Modelled from the spec: `bt.indicators.ATR` — the Wilder-smoothed
(`k = 1 / period`) average of the true ranges (spec section 4.1); the
implementation lives in the external library, not under src/. -/
def ATR (period : ℕ) (bars : List PriceBar) : Option ℚ :=
  seededSmooth (1 / (period : ℚ)) period (trueRanges bars)

/-! ## Spec-side window predicates -/

/-- `m` is the maximum of `f` over the index interval `[a, b]`. -/
def isMaxOver (f : ℕ → ℚ) (a b : ℕ) (m : ℚ) : Prop :=
  (∀ j, a ≤ j → j ≤ b → f j ≤ m) ∧ (∃ j, a ≤ j ∧ j ≤ b ∧ m = f j)

/-- `m` is the minimum of `f` over the index interval `[a, b]`. -/
def isMinOver (f : ℕ → ℚ) (a b : ℕ) (m : ℚ) : Prop :=
  (∀ j, a ≤ j → j ≤ b → m ≤ f j) ∧ (∃ j, a ≤ j ∧ j ≤ b ∧ m = f j)

/-! ## Concrete evaluation inputs -/

/-- A bar context whose current close (110) breaks above the channel while
the fast EMA is above the slow one and the position is flat. -/
def entryCtx : BarCtx :=
  { close := 110, dch := 105, dcl := 50, emafast := 2, emaslow := 1
    atr := 1, positionSize := 0 }

/-- A bar context on which a long position (size 1) is open, with ATR 1 and
current close 110. -/
def longCtx : BarCtx :=
  { close := 110, dch := 120, dcl := 80, emafast := 1, emaslow := 1
    atr := 1, positionSize := 1 }

/-- A flat-position breakout context: close 110 above the channel high 100,
fast EMA above slow. -/
def breakoutCtx : BarCtx :=
  { close := 110, dch := 100, dcl := 90, emafast := 2, emaslow := 1
    atr := 1, positionSize := 0 }

/-- An invalid configuration: non-positive Donchian period, negative
commission and margin, and `fromdate > todate`. -/
def badConfig : RunConfig :=
  { fromdate := 100, todate := 50, fast_ema_period := 25
    slow_ema_period := 350, donchian_period := 0, ATR_period := 20
    ATR_dist := 2, perc := 1 / 100, margin := -1, commission := -5
    startingCash := 500000 }

/-- The inclusion of the naturals into ℚ, used as a concrete strictly
increasing price series. -/
def natQ : ℕ → ℚ := fun n => (n : ℚ)

/-! ## Helper lemmas -/

/-- The seed is a lower bound of a `foldr max`. -/
theorem le_foldr_max (a : ℚ) (l : List ℚ) : a ≤ l.foldr max a := by
  induction l with
  | nil => exact le_refl a
  | cons b l ih => exact le_trans ih (le_max_right b _)

/-- Every list element is a lower bound of a `foldr max`. -/
theorem mem_le_foldr_max (a x : ℚ) (l : List ℚ) (hx : x ∈ l) :
    x ≤ l.foldr max a := by
  induction l with
  | nil => cases hx
  | cons b l ih =>
    rcases List.mem_cons.mp hx with h | h
    · subst h
      exact le_max_left x _
    · exact le_trans (ih h) (le_max_right b _)

/-- A `foldr max` is its seed or one of the list elements. -/
theorem foldr_max_eq_or_mem (a : ℚ) (l : List ℚ) :
    l.foldr max a = a ∨ l.foldr max a ∈ l := by
  induction l with
  | nil => exact Or.inl rfl
  | cons b l ih =>
    rcases max_choice b (l.foldr max a) with h | h
    · rw [List.foldr_cons, h]
      exact Or.inr (List.mem_cons_self b l)
    · rw [List.foldr_cons, h]
      rcases ih with h2 | h2
      · exact Or.inl h2
      · exact Or.inr (List.mem_cons_of_mem b h2)

/-- The seed is an upper bound of a `foldr min`. -/
theorem foldr_min_le (a : ℚ) (l : List ℚ) : l.foldr min a ≤ a := by
  induction l with
  | nil => exact le_refl a
  | cons b l ih => exact le_trans (min_le_right b _) ih

/-- Every list element is an upper bound of a `foldr min`. -/
theorem foldr_min_le_mem (a x : ℚ) (l : List ℚ) (hx : x ∈ l) :
    l.foldr min a ≤ x := by
  induction l with
  | nil => cases hx
  | cons b l ih =>
    rcases List.mem_cons.mp hx with h | h
    · subst h
      exact min_le_left x _
    · exact le_trans (min_le_right b _) (ih h)

/-- A `foldr min` is its seed or one of the list elements. -/
theorem foldr_min_eq_or_mem (a : ℚ) (l : List ℚ) :
    l.foldr min a = a ∨ l.foldr min a ∈ l := by
  induction l with
  | nil => exact Or.inl rfl
  | cons b l ih =>
    rcases min_choice b (l.foldr min a) with h | h
    · rw [List.foldr_cons, h]
      exact Or.inr (List.mem_cons_self b l)
    · rw [List.foldr_cons, h]
      rcases ih with h2 | h2
      · exact Or.inl h2
      · exact Or.inr (List.mem_cons_of_mem b h2)

/-- The current value is a lower bound of the rolling highest. -/
theorem self_le_Highest (x : ℕ → ℚ) (p t : ℕ) : x t ≤ Highest x p t :=
  le_foldr_max (x t) (windowVals x p t)

/-- Every window value is a lower bound of the rolling highest. -/
theorem window_le_Highest (x : ℕ → ℚ) (p t i : ℕ) (hi : i < p) :
    x (t - i) ≤ Highest x p t :=
  mem_le_foldr_max (x t) _ _
    (List.mem_map_of_mem (fun i => x (t - i)) (List.mem_range.mpr hi))

/-- The rolling highest is attained at the current bar or in the window. -/
theorem Highest_attained (x : ℕ → ℚ) (p t : ℕ) :
    Highest x p t = x t ∨ ∃ i, i < p ∧ Highest x p t = x (t - i) := by
  rcases foldr_max_eq_or_mem (x t) (windowVals x p t) with h | h
  · exact Or.inl h
  · rcases List.mem_map.mp h with ⟨i, hi, hx⟩
    exact Or.inr ⟨i, List.mem_range.mp hi, hx.symm⟩

/-- The current value is an upper bound of the rolling lowest. -/
theorem Lowest_le_self (x : ℕ → ℚ) (p t : ℕ) : Lowest x p t ≤ x t :=
  foldr_min_le (x t) (windowVals x p t)

/-- Every window value is an upper bound of the rolling lowest. -/
theorem Lowest_le_window (x : ℕ → ℚ) (p t i : ℕ) (hi : i < p) :
    Lowest x p t ≤ x (t - i) :=
  foldr_min_le_mem (x t) _ _
    (List.mem_map_of_mem (fun i => x (t - i)) (List.mem_range.mpr hi))

/-- The rolling lowest is attained at the current bar or in the window. -/
theorem Lowest_attained (x : ℕ → ℚ) (p t : ℕ) :
    Lowest x p t = x t ∨ ∃ i, i < p ∧ Lowest x p t = x (t - i) := by
  rcases foldr_min_eq_or_mem (x t) (windowVals x p t) with h | h
  · exact Or.inl h
  · rcases List.mem_map.mp h with ⟨i, hi, hx⟩
    exact Or.inr ⟨i, List.mem_range.mp hi, hx.symm⟩

/-- A line called with ago `-1` reads the previous bar. -/
theorem lineCall_neg_one (x : ℕ → ℚ) (t : ℕ) (h : 1 ≤ t) :
    lineCall x (-1) t = x (t - 1) := by
  unfold lineCall
  congr 1
  omega

/-- `next` assigns no strategy attribute: the state it returns is the state
it was given. -/
theorem next_fst (p : TurtleParams) (s : StratState) (ctx : BarCtx) :
    (TurtleStrategy.next p s ctx).1 = s := by
  unfold TurtleStrategy.next
  repeat' split
  all_goals rfl

/-- `notify_order` never touches `dataclose`. -/
theorem notify_order_dataclose (s : StratState) (o : OrderMsg) :
    (TurtleStrategy.notify_order s o).dataclose = s.dataclose := by
  unfold TurtleStrategy.notify_order
  repeat' split
  all_goals rfl

/-- No strategy callback changes `dataclose`. -/
theorem stepEvent_dataclose (p : TurtleParams) (s : StratState) (e : TEvent) :
    (stepEvent p s e).dataclose = s.dataclose := by
  cases e with
  | bar ctx => simp [stepEvent, next_fst]
  | onOrder m => simp [stepEvent, notify_order_dataclose]

/-- Whatever the state, `next` cannot submit a closing order while
`pdist = atr * ATR_dist` is nonnegative: both exit disjunctions compare
`dataclose` against `dataclose ∓ pdist` and are false. -/
theorem next_ne_closePos_of_nonneg (p : TurtleParams) (s : StratState) (ctx : BarCtx)
    (h : 0 ≤ pdist p ctx) :
    (TurtleStrategy.next p s ctx).2 ≠ some TradeAction.closePos := by
  unfold TurtleStrategy.next
  repeat' split
  all_goals simp_all [long_stop, long_profit, short_stop, short_profit]
  all_goals rcases ‹_ ∨ _› with h2 | h2 <;> linarith

/-- Over a whole run, nonnegative per-bar ATR (and a nonnegative `ATR_dist`)
means no closing order is ever submitted. -/
theorem closePos_not_in_runActions (p : TurtleParams) (hd : 0 ≤ p.ATR_dist) :
    ∀ (ctxs : List BarCtx) (s : StratState), (∀ c ∈ ctxs, 0 ≤ c.atr) →
      TradeAction.closePos ∉ runActions p s ctxs := by
  intro ctxs
  induction ctxs with
  | nil =>
    intro s _
    simp [runActions]
  | cons ctx rest ih =>
    intro s hall hmem
    have hpd : 0 ≤ pdist p ctx :=
      mul_nonneg (hall ctx (List.mem_cons_self ctx rest)) hd
    unfold runActions at hmem
    rcases List.mem_append.mp hmem with hm | hm
    · exact next_ne_closePos_of_nonneg p s ctx hpd
        (Option.mem_def.mp (Option.mem_toList.mp hm))
    · exact ih (TurtleStrategy.next p s ctx).1
        (fun c hc => hall c (List.mem_cons_of_mem _ hc)) hm

/-! ## Claim theorems -/

/-- Claim C1 (code bug, evaluated at the failing input): on a bar whose
current close (110) breaks above the Donchian high channel (105) with the
fast EMA (2) above the slow EMA (1), a flat position and no pending order,
the claim requires a buy submission, but `next` compares the frozen
construction-time `dataclose` (100) instead of the current close and
submits nothing. -/
theorem entry_rule_ignores_current_close :
    entryCtx.close > entryCtx.dch
    ∧ entryCtx.emafast > entryCtx.emaslow
    ∧ entryCtx.positionSize = 0
    ∧ (TurtleStrategy.init 100).order = none
    ∧ (TurtleStrategy.next TurtleStrategy.params (TurtleStrategy.init 100) entryCtx).2
        = none := by
  decide

/-- Claim C2: `dataclose` is assigned exactly once, at construction, from
the scalar value of `self.data.close[0]`; after any sequence of `next` and
`notify_order` callbacks the reachable state's `dataclose` still equals the
construction-time value. -/
theorem dataclose_frozen_across_run (p : TurtleParams) (c0 : ℚ) (evs : List TEvent) :
    (evs.foldl (stepEvent p) (TurtleStrategy.init c0)).dataclose = c0 := by
  have h : ∀ (l : List TEvent) (s : StratState),
      (l.foldl (stepEvent p) s).dataclose = s.dataclose := by
    intro l
    induction l with
    | nil => intro s; rfl
    | cons e l ih =>
      intro s
      rw [List.foldl_cons, ih, stepEvent_dataclose]
  rw [h]
  rfl

/-- Claim C3 (code bug, evaluated at the failing input): with a long
position open, construction-time `dataclose` 100, current close 110 and
ATR 1 (so `pdist = 2`), the code computes `long_stop = 98` and
`long_profit = 102` from the frozen snapshot, while the claim says the
levels are computed from the current bar's close (108 and 112); the
submission decision happens to agree (no order either way) because the
same close value appears on both sides of each comparison. -/
theorem exit_levels_computed_from_frozen_close :
    longCtx.positionSize > 0
    ∧ (TurtleStrategy.init 100).order = none
    ∧ long_stop TurtleStrategy.params (TurtleStrategy.init 100) longCtx = 98
    ∧ long_profit TurtleStrategy.params (TurtleStrategy.init 100) longCtx = 102
    ∧ longCtx.close - pdist TurtleStrategy.params longCtx = 108
    ∧ longCtx.close + pdist TurtleStrategy.params longCtx = 112
    ∧ (TurtleStrategy.next TurtleStrategy.params (TurtleStrategy.init 100) longCtx).2
        = none := by
  norm_num [long_stop, long_profit, pdist, longCtx, TurtleStrategy.init,
    TurtleStrategy.params, TurtleStrategy.next]

/-- Claim C4: because stop and profit are both offsets of the very close
value compared against them (with `ATR_dist = 2` from the default params),
on every bar with nonnegative ATR all four exit comparisons are false, and
over any run whose bars all have nonnegative ATR the strategy never submits
a closing order — a position is never exited by the per-bar exit rule. -/
theorem no_exit_order_under_nonneg_atr :
    (∀ (s : StratState) (ctx : BarCtx), 0 ≤ ctx.atr →
        ¬(s.dataclose < long_stop TurtleStrategy.params s ctx)
        ∧ ¬(s.dataclose > long_profit TurtleStrategy.params s ctx)
        ∧ ¬(s.dataclose > short_stop TurtleStrategy.params s ctx)
        ∧ ¬(s.dataclose < short_profit TurtleStrategy.params s ctx))
    ∧ (∀ (ctxs : List BarCtx) (s : StratState), (∀ c ∈ ctxs, 0 ≤ c.atr) →
        TradeAction.closePos ∉ runActions TurtleStrategy.params s ctxs) := by
  have hd : (0 : ℚ) ≤ TurtleStrategy.params.ATR_dist := by norm_num [TurtleStrategy.params]
  constructor
  · intro s ctx h
    have hpd : 0 ≤ pdist TurtleStrategy.params ctx := mul_nonneg h hd
    unfold long_stop long_profit short_stop short_profit
    refine ⟨?_, ?_, ?_, ?_⟩ <;> intro hc <;> linarith
  · exact closePos_not_in_runActions TurtleStrategy.params hd

/-- Witness: over a one-bar run holding a long position with ATR 1, no
closing order is submitted. -/
theorem no_exit_order_under_nonneg_atr_witness :
    TradeAction.closePos ∉
      runActions TurtleStrategy.params (TurtleStrategy.init 100) [longCtx] :=
  no_exit_order_under_nonneg_atr.2 [longCtx] (TurtleStrategy.init 100)
    (by
      intro c hc
      simp only [List.mem_singleton] at hc
      subst hc
      norm_num [longCtx])

/-- Claim C5 (code bug, evaluated at the failing input): on a breakout bar
`next` submits a buy, yet the returned state's `order` guard is still
`none` — the source discards the value returned by `self.buy()` — so a
second `next` call while the first order is still outstanding submits a
second buy; the final conjunct shows the guard would have blocked the
resubmission had it been set. -/
theorem order_guard_never_set_on_submit :
    (TurtleStrategy.next TurtleStrategy.params (TurtleStrategy.init 110) breakoutCtx).2
        = some TradeAction.buy
    ∧ ((TurtleStrategy.next TurtleStrategy.params (TurtleStrategy.init 110) breakoutCtx).1).order
        = none
    ∧ (TurtleStrategy.next TurtleStrategy.params
        ((TurtleStrategy.next TurtleStrategy.params (TurtleStrategy.init 110) breakoutCtx).1)
        breakoutCtx).2 = some TradeAction.buy
    ∧ (TurtleStrategy.next TurtleStrategy.params
        { TurtleStrategy.init 110 with order := some () } breakoutCtx).2 = none := by
  decide

/-- Claim C6 counterexample: at `cash = -500000`, `perc = 0.01`,
`margin = 5000` the sizer returns `-1`, not the `0` the claim requires for
non-positive cash. -/
theorem sizer_not_clamped_at_negative_cash :
    FixedPerc.getsizing (1 / 100) 5000 (-500000) = -1
    ∧ ((-500000 : ℚ) ≤ 0)
    ∧ ((-1 : ℤ) ≠ 0) := by
  norm_num [FixedPerc.getsizing]

/-- Claim C6 (amended): the sizer returns `floor(cash * perc / margin)` for
all inputs — in particular `1` at cash 500000 and `0` at cash 499999 with
perc 0.01 and margin 5000, and `0` whenever `0 ≤ perc * cash < margin` —
but it does not clamp negative products to zero. -/
theorem sizer_floor_semantics :
    (∀ perc margin cash : ℚ,
        FixedPerc.getsizing perc margin cash = ⌊cash * perc / margin⌋)
    ∧ FixedPerc.getsizing (1 / 100) 5000 500000 = 1
    ∧ FixedPerc.getsizing (1 / 100) 5000 499999 = 0
    ∧ (∀ perc margin cash : ℚ, 0 < margin → 0 ≤ perc * cash → perc * cash < margin →
        FixedPerc.getsizing perc margin cash = 0) := by
  refine ⟨fun perc margin cash => ?_, by norm_num [FixedPerc.getsizing],
    by norm_num [FixedPerc.getsizing], fun perc margin cash hm h0 h1 => ?_⟩
  · show ⌊perc * cash / margin⌋ = ⌊cash * perc / margin⌋
    rw [mul_comm]
  · show ⌊perc * cash / margin⌋ = 0
    rw [Int.floor_eq_zero_iff]
    exact Set.mem_Ico.mpr ⟨div_nonneg h0 hm.le, (div_lt_one hm).mpr h1⟩

/-- Witness for the amended sizer claim: at cash 250000 the product 2500 is
nonnegative and below the margin 5000, so the size is 0. -/
theorem sizer_floor_semantics_witness :
    (0 : ℚ) < 5000 ∧ FixedPerc.getsizing (1 / 100) 5000 250000 = 0 :=
  ⟨by norm_num,
    sizer_floor_semantics.2.2.2 (1 / 100) 5000 250000 (by norm_num) (by norm_num)
      (by norm_num)⟩

/-- Claim C8 counterexample: a configuration with a non-positive Donchian
period, negative commission and margin, and `fromdate > todate` is accepted
by the startup path without any error. -/
theorem startup_accepts_invalid_config :
    (mainStartup badConfig).isOk = true
    ∧ badConfig.donchian_period ≤ 0
    ∧ badConfig.commission < 0
    ∧ badConfig.margin < 0
    ∧ badConfig.todate < badConfig.fromdate := by
  exact ⟨rfl, by norm_num [badConfig], by norm_num [badConfig],
    by norm_num [badConfig], by norm_num [badConfig]⟩

/-- Claim C8 (amended): the startup path performs no configuration
validation — every configuration is accepted — and an inverted date range
merely yields an empty filtered feed, so the run processes no bars and
terminates normally instead of failing fast. -/
theorem startup_performs_no_validation :
    (∀ c : RunConfig, mainStartup c = Except.ok { config := c })
    ∧ (∀ (fd td : ℤ) (bars : List (ℤ × PriceBar)), td < fd →
        filterFeed fd td bars = []) := by
  constructor
  · intro c
    rfl
  · intro fd td bars h
    unfold filterFeed
    rw [List.filter_eq_nil_iff]
    intro b _
    simp only [Bool.and_eq_true, decide_eq_true_eq, not_and]
    intro h1 h2
    omega

/-- Witness for the amended startup claim: with `fromdate = 5 > todate = 3`
a feed containing a bar at day 4 filters to nothing. -/
theorem startup_performs_no_validation_witness :
    ((3 : ℤ) < 5) ∧ filterFeed 5 3 [(4, ⟨1, 1, 1⟩)] = [] :=
  ⟨by norm_num,
    startup_performs_no_validation.2 5 3 [(4, ⟨1, 1, 1⟩)] (by norm_num)⟩

/-- Claim C7: with the default current-bar-excluding lookback `-1`, the
Donchian high channel at bar `t` (for `p ≤ t`, `1 ≤ p`) is exactly the
maximum of the highs over `[t-p, t-1]` — strictly excluding `high t`, so
the current bar can break the channel — and the low channel is the
corresponding minimum; with lookback `0` the window includes the current
bar, so the close can never register as a breakout of its own channel; the
mid line is the average of the two channels. -/
theorem donchian_window_semantics (p t : ℕ) (high low close : ℕ → ℚ)
    (hp : 1 ≤ p) (ht : p ≤ t)
    (hlc : low t ≤ close t) (hch : close t ≤ high t) :
    isMaxOver high (t - p) (t - 1) ((DonchianChannels high low p (-1)).dch t)
    ∧ isMinOver low (t - p) (t - 1) ((DonchianChannels high low p (-1)).dcl t)
    ∧ ¬(close t > (DonchianChannels high low p 0).dch t)
    ∧ ¬(close t < (DonchianChannels high low p 0).dcl t)
    ∧ (DonchianChannels high low p (-1)).dcm t
        = ((DonchianChannels high low p (-1)).dch t
            + (DonchianChannels high low p (-1)).dcl t) / 2 := by
  have hneg : ¬((-1 : ℤ) = 0) := by decide
  have hdch : (DonchianChannels high low p (-1)).dch t
      = Highest (lineCall high (-1)) p t := by
    simp [DonchianChannels, hneg]
  have hdcl : (DonchianChannels high low p (-1)).dcl t
      = Lowest (lineCall low (-1)) p t := by
    simp [DonchianChannels, hneg]
  have hdch0 : (DonchianChannels high low p 0).dch t = Highest high p t := by
    simp [DonchianChannels]
  have hdcl0 : (DonchianChannels high low p 0).dcl t = Lowest low p t := by
    simp [DonchianChannels]
  refine ⟨⟨?_, ?_⟩, ⟨?_, ?_⟩, ?_, ?_, ?_⟩
  · intro j hj1 hj2
    rw [hdch]
    have hij : t - (t - 1 - j) = j + 1 := by omega
    have hval : lineCall high (-1) (t - (t - 1 - j)) = high j := by
      rw [lineCall_neg_one _ _ (by omega)]
      congr 1
      omega
    calc high j = lineCall high (-1) (t - (t - 1 - j)) := hval.symm
      _ ≤ Highest (lineCall high (-1)) p t :=
        window_le_Highest _ p t (t - 1 - j) (by omega)
  · rw [hdch]
    rcases Highest_attained (lineCall high (-1)) p t with h | ⟨i, hi, heq⟩
    · refine ⟨t - 1, by omega, le_refl _, ?_⟩
      rw [h, lineCall_neg_one _ _ (by omega)]
    · refine ⟨t - i - 1, by omega, by omega, ?_⟩
      rw [heq, lineCall_neg_one _ _ (by omega)]
  · intro j hj1 hj2
    rw [hdcl]
    have hval : lineCall low (-1) (t - (t - 1 - j)) = low j := by
      rw [lineCall_neg_one _ _ (by omega)]
      congr 1
      omega
    calc Lowest (lineCall low (-1)) p t
        ≤ lineCall low (-1) (t - (t - 1 - j)) :=
          Lowest_le_window _ p t (t - 1 - j) (by omega)
      _ = low j := hval
  · rw [hdcl]
    rcases Lowest_attained (lineCall low (-1)) p t with h | ⟨i, hi, heq⟩
    · refine ⟨t - 1, by omega, le_refl _, ?_⟩
      rw [h, lineCall_neg_one _ _ (by omega)]
    · refine ⟨t - i - 1, by omega, by omega, ?_⟩
      rw [heq, lineCall_neg_one _ _ (by omega)]
  · rw [hdch0]
    exact not_lt.mpr (le_trans hch (self_le_Highest high p t))
  · rw [hdcl0]
    exact not_lt.mpr (le_trans (Lowest_le_self low p t) hlc)
  · rfl

/-- Witness: the strictly increasing series `natQ` with period 2 at bar 2
instantiates the Donchian window characterization. -/
theorem donchian_window_semantics_witness :
    isMaxOver natQ 0 1 ((DonchianChannels natQ natQ 2 (-1)).dch 2)
    ∧ isMinOver natQ 0 1 ((DonchianChannels natQ natQ 2 (-1)).dcl 2)
    ∧ ¬(natQ 2 > (DonchianChannels natQ natQ 2 0).dch 2)
    ∧ ¬(natQ 2 < (DonchianChannels natQ natQ 2 0).dcl 2)
    ∧ (DonchianChannels natQ natQ 2 (-1)).dcm 2
        = ((DonchianChannels natQ natQ 2 (-1)).dch 2
            + (DonchianChannels natQ natQ 2 (-1)).dcl 2) / 2 :=
  donchian_window_semantics 2 2 natQ natQ natQ (by norm_num) (by norm_num)
    (le_refl _) (le_refl _)

/-- The simple average of a constant list is that constant. -/
theorem sma_replicate (v : ℚ) (n : ℕ) (hn : 1 ≤ n) :
    sma (List.replicate n v) = v := by
  have h0 : ((n : ℚ)) ≠ 0 := by
    exact_mod_cast Nat.one_le_iff_ne_zero.mp hn
  unfold sma
  rw [List.sum_replicate, List.length_replicate, nsmul_eq_mul, mul_comm,
    mul_div_assoc, div_self h0, mul_one]

/-- Folding the smoother over a constant list equal to the accumulator
leaves the accumulator unchanged: `v` is a fixed point of the update. -/
theorem foldl_smoothUpd_replicate (k v : ℚ) (m : ℕ) :
    List.foldl (smoothUpd k) v (List.replicate m v) = v := by
  induction m with
  | zero => rfl
  | succ m ih =>
    rw [List.replicate_succ, List.foldl_cons]
    have hv : smoothUpd k v v = v := by
      unfold smoothUpd
      ring
    rw [hv, ih]

/-- Feeding a seeded smoother a constant series of length at least its
period yields exactly that constant. -/
theorem seededSmooth_replicate (k v : ℚ) (p m : ℕ) (hp : 1 ≤ p) (hm : p ≤ m) :
    seededSmooth k p (List.replicate m v) = some v := by
  unfold seededSmooth
  rw [if_neg (by omega), if_neg (by simp [List.length_replicate]; omega)]
  rw [List.take_replicate, List.drop_replicate, Nat.min_eq_left hm,
    sma_replicate v p hp, foldl_smoothUpd_replicate]

/-- The simple average of nonnegative values is nonnegative. -/
theorem sma_nonneg (l : List ℚ) (h : ∀ x ∈ l, 0 ≤ x) : 0 ≤ sma l := by
  unfold sma
  exact div_nonneg (List.sum_nonneg h) (by positivity)

/-- A smoothing coefficient in [0, 1] keeps the fold of nonnegative values
from a nonnegative start nonnegative. -/
theorem foldl_smoothUpd_nonneg (k : ℚ) (hk0 : 0 ≤ k) (hk1 : k ≤ 1) :
    ∀ (l : List ℚ) (e : ℚ), 0 ≤ e → (∀ x ∈ l, 0 ≤ x) →
      0 ≤ List.foldl (smoothUpd k) e l := by
  intro l
  induction l with
  | nil => intro e he _; exact he
  | cons b l ih =>
    intro e he hall
    rw [List.foldl_cons]
    refine ih (smoothUpd k e b) ?_ (fun x hx => hall x (List.mem_cons_of_mem b hx))
    unfold smoothUpd
    have hb : 0 ≤ b := hall b (List.mem_cons_self b l)
    have h1k : 0 ≤ 1 - k := by linarith
    exact add_nonneg (mul_nonneg hb hk0) (mul_nonneg he h1k)

/-- Whenever a seeded smoother with coefficient in [0, 1] yields a value
from nonnegative inputs, that value is nonnegative. -/
theorem seededSmooth_nonneg (k : ℚ) (p : ℕ) (vals : List ℚ) (a : ℚ)
    (hk0 : 0 ≤ k) (hk1 : k ≤ 1) (hv : ∀ x ∈ vals, 0 ≤ x)
    (h : seededSmooth k p vals = some a) : 0 ≤ a := by
  unfold seededSmooth at h
  split at h
  · exact absurd h (by simp)
  · split at h
    · exact absurd h (by simp)
    · rw [Option.some.injEq] at h
      subst h
      refine foldl_smoothUpd_nonneg k hk0 hk1 _ _ ?_ ?_
      · exact sma_nonneg _ (fun x hx => hv x (List.take_subset p vals hx))
      · exact fun x hx => hv x (List.drop_subset p vals hx)

/-- The true range is always nonnegative: it dominates an absolute value. -/
theorem trueRange_nonneg (h l pc : ℚ) : 0 ≤ trueRange h l pc :=
  (abs_nonneg (h - pc)).trans ((le_max_left _ _).trans (le_max_right _ _))

/-- All computed true ranges are nonnegative. -/
theorem trueRanges_nonneg : ∀ (bars : List PriceBar), ∀ x ∈ trueRanges bars, 0 ≤ x
  | [] => by simp [trueRanges]
  | [b] => by simp [trueRanges]
  | b0 :: b1 :: rest => by
    intro x hx
    rw [trueRanges] at hx
    rcases List.mem_cons.mp hx with h | h
    · subst h
      exact trueRange_nonneg _ _ _
    · exact trueRanges_nonneg (b1 :: rest) x h

/-- The true ranges of a constant-price bar list are all zero. -/
theorem trueRanges_replicate (v : ℚ) :
    ∀ n, trueRanges (List.replicate n ⟨v, v, v⟩) = List.replicate (n - 1) (0 : ℚ)
  | 0 => by simp [trueRanges]
  | 1 => by simp [trueRanges]
  | n + 2 => by
    have ih := trueRanges_replicate v (n + 1)
    rw [List.replicate_succ, List.replicate_succ]
    rw [trueRanges]
    rw [← List.replicate_succ] at *
    rw [ih]
    have htr : trueRange v v v = 0 := by
      simp [trueRange]
    rw [htr]
    simp [List.replicate_succ]

/-- Claim C9 (modelled from the spec, the EMA implementation living in the
external library): the EMA is the recursion `ema = v*k + prev*(1-k)` with
`k = 2/(period+1)`, seeded by the simple average of the first `period`
values and undefined before `period` values; hence a constant series of
value `v` of length at least `period` yields exactly `v`. -/
theorem ema_constant_series_fixed_point :
    ∀ (period n : ℕ) (v : ℚ), 1 ≤ period →
      (∀ vals : List ℚ, vals.length < period →
          ExponentialMovingAverage period vals = none)
      ∧ (period ≤ n →
          ExponentialMovingAverage period (List.replicate n v) = some v) := by
  intro period n v hp
  constructor
  · intro vals hlen
    unfold ExponentialMovingAverage seededSmooth
    rw [if_neg (by omega), if_pos hlen]
  · intro hn
    exact seededSmooth_replicate (emaK period) v period n hp hn

/-- Witness: with period 2, one observation gives no EMA value, and three
constant observations of 5 give exactly 5. -/
theorem ema_constant_series_fixed_point_witness :
    ExponentialMovingAverage 2 [(1 : ℚ)] = none
    ∧ ExponentialMovingAverage 2 (List.replicate 3 (5 : ℚ)) = some 5 :=
  ⟨(ema_constant_series_fixed_point 2 3 5 (by norm_num)).1 [1] (by norm_num),
    (ema_constant_series_fixed_point 2 3 5 (by norm_num)).2 (by norm_num)⟩

/-- Claim C10 (modelled from the spec, the ATR implementation living in the
external library): whenever the Wilder-smoothed ATR over the true ranges is
defined it is nonnegative, and on a constant-price series (high = low =
close = previous close throughout) of more than `period` bars it is
exactly 0. -/
theorem atr_nonneg_and_zero_on_constant :
    ∀ (period : ℕ) (bars : List PriceBar) (a : ℚ), 1 ≤ period →
      (ATR period bars = some a → 0 ≤ a)
      ∧ (∀ (v : ℚ) (n : ℕ), period + 1 ≤ n →
          ATR period (List.replicate n ⟨v, v, v⟩) = some 0) := by
  intro period bars a hp
  have hper : (0 : ℚ) < (period : ℚ) := by
    have : 0 < period := hp
    exact_mod_cast this
  constructor
  · intro h
    refine seededSmooth_nonneg _ _ _ _ ?_ ?_ (trueRanges_nonneg bars) h
    · positivity
    · rw [div_le_one hper]
      exact_mod_cast hp
  · intro v n hn
    unfold ATR
    rw [trueRanges_replicate]
    exact seededSmooth_replicate _ 0 period (n - 1) hp (by omega)

/-- Witness: four constant bars at price 7 with period 2 give ATR 0 (which
is also trivially nonnegative). -/
theorem atr_nonneg_and_zero_on_constant_witness :
    ATR 2 (List.replicate 4 ⟨7, 7, 7⟩) = some 0 :=
  (atr_nonneg_and_zero_on_constant 2 [] 0 (by norm_num)).2 7 4 (by norm_num)
